import Mathlib

/-!
# Verification of the run-length-encoding iterator adapter

Shallow embedding of `src/lib.rs` (`RunLengthEncode`), a double-ended
run-length-encoding adapter over an iterator.  The underlying fused,
double-ended iterator over a finite source is modelled as a shared pool
`remaining : List α`: `Iterator::next` pulls from the head and
`DoubleEndedIterator::next_back` pulls from the last position; once the
pool is empty both ends signal exhaustion, which is exactly the behaviour
of Rust's `Fuse` around a finite double-ended iterator.  Element equality
(`T: Eq`) is an arbitrary boolean function `eq`, since the spec stresses
that `==` may ignore fields of `T`.
-/

namespace RLE

/-- Which of the two pull operations is invoked (`next` / `next_back`). -/
inductive Dir where
  | front
  | back
deriving DecidableEq

variable {α : Type}

/-- The fields of `struct RunLengthEncode`: the (fused) source, the shared
`count` field, and the two pending-run slots `current_front` / `current_back`. -/
structure State (α : Type) where
  remaining : List α
  count : Nat
  current_front : Option α
  current_back : Option α
deriving DecidableEq

/-- `RunLengthEncode::new`: wraps a fresh source with no pending state, `count: 0`. -/
def RunLengthEncode.new (S : List α) : State α :=
  ⟨S, 0, none, none⟩

/-- The `loop` body of `Iterator::next`, recursing over the elements still
pullable from the front.  Arguments mirror the mutable fields read by the
loop: the remaining source, `count`, the calling side's own pending slot
(`current_front`) and the other side's slot (`current_back`).  Clauses, in
order of the Rust `match`:
* `x @ Some(_) if x == self.current_front` — increment `count`, keep looping;
* `Some(item)` with a pending front — emit `(count, current)`, start the new
  pending run with `count = 1`;
* `Some(item)` with no pending front — install the pending run, keep looping;
* `None` — the exhaustion branch: merge with an equal pending back
  (emitting `count + 1`), or emit the pending front alone restoring the
  pending back, or drain the pending back alone as `(1, item)`, or signal
  exhaustion. -/
def nextGo (eq : α → α → Bool) :
    List α → Nat → Option α → Option α →
      Option (Nat × α) × List α × Nat × Option α × Option α
  | x :: rest, c, some f, other =>
    if eq x f then
      nextGo eq rest (c + 1) (some f) other
    else
      (some (c, f), rest, 1, some x, other)
  | x :: rest, _, none, other => nextGo eq rest 1 (some x) other
  | [], c, some f, some b =>
    if eq f b then (some (c + 1, f), [], c, none, none)
    else (some (c, f), [], c, none, some b)
  | [], c, some f, none => (some (c, f), [], c, none, none)
  | [], c, none, some b => (some (1, b), [], c, none, none)
  | [], c, none, none => (none, [], c, none, none)

/-- The `loop` body of `DoubleEndedIterator::next_back`.  Identical to
`nextGo` with the roles of the two slots swapped (own = `current_back`,
other = `current_front`), except for the merge test in the exhaustion
branch, which the source writes as `front_item == back_item` in *both*
loops — here that is `eq f b` with `f` the *other* slot's element.  The
list argument is the reversed remaining pool, so pulling its head models
`iter.next_back()`. -/
def backGo (eq : α → α → Bool) :
    List α → Nat → Option α → Option α →
      Option (Nat × α) × List α × Nat × Option α × Option α
  | x :: rest, c, some b, other =>
    if eq x b then
      backGo eq rest (c + 1) (some b) other
    else
      (some (c, b), rest, 1, some x, other)
  | x :: rest, _, none, other => backGo eq rest 1 (some x) other
  | [], c, some b, some f =>
    if eq f b then (some (c + 1, b), [], c, none, none)
    else (some (c, b), [], c, none, some f)
  | [], c, some b, none => (some (c, b), [], c, none, none)
  | [], c, none, some f => (some (1, f), [], c, none, none)
  | [], c, none, none => (none, [], c, none, none)

/-- `Iterator::next for RunLengthEncode`: run the loop, then reassemble the
struct fields. -/
def next (eq : α → α → Bool) (s : State α) : Option (Nat × α) × State α :=
  match nextGo eq s.remaining s.count s.current_front s.current_back with
  | (out, rem, c, f, b) => (out, ⟨rem, c, f, b⟩)

/-- `DoubleEndedIterator::next_back for RunLengthEncode`: run the loop on the
back end of the pool (its reversal), then reassemble the struct fields. -/
def next_back (eq : α → α → Bool) (s : State α) : Option (Nat × α) × State α :=
  match backGo eq s.remaining.reverse s.count s.current_back s.current_front with
  | (out, rrev, c, b, f) => (out, ⟨rrev.reverse, c, f, b⟩)

/-- Dispatch a pull in the given direction. -/
def pull (eq : α → α → Bool) : Dir → State α → Option (Nat × α) × State α
  | .front, s => next eq s
  | .back, s => next_back eq s

/-- Run a whole interleaving of pulls, collecting each call's result. -/
def runPulls (eq : α → α → Bool) : List Dir → State α → List (Option (Nat × α)) × State α
  | [], s => ([], s)
  | d :: ds, s =>
    let r := pull eq d s
    let rs := runPulls eq ds r.2
    (r.1 :: rs.1, rs.2)

/-- Boolean equality on `Nat`, the concrete element equality used by all
concrete executions below. -/
def eqNat : Nat → Nat → Bool := fun a b => a == b

/-! ## Termination of full drains -/

/-- Weight of a pending slot: `1` when occupied. -/
def pendingWeight : Option α → Nat
  | none => 0
  | some _ => 1

/-- Drain measure: source elements not yet pulled plus occupied pending slots. -/
def measureOf (s : State α) : Nat :=
  s.remaining.length + pendingWeight s.current_front + pendingWeight s.current_back

theorem nextGo_some_meas (eq : α → α → Bool) :
    ∀ (l : List α) (c : Nat) (own other : Option α) (p : Nat × α) rem c' own' other',
      nextGo eq l c own other = (some p, rem, c', own', other') →
      rem.length + pendingWeight own' + pendingWeight other' <
        l.length + pendingWeight own + pendingWeight other := by
  intro l
  induction l with
  | nil =>
    intro c own other p rem c' own' other' h
    match own, other, h with
    | some f, some b, h =>
      by_cases hfb : eq f b = true
      · simp [nextGo, hfb] at h
        obtain ⟨-, rfl, -, rfl, rfl⟩ := h
        simp [pendingWeight]
      · simp [nextGo, hfb] at h
        obtain ⟨-, rfl, -, rfl, rfl⟩ := h
        simp [pendingWeight]
    | some f, none, h =>
      simp [nextGo] at h
      obtain ⟨-, rfl, -, rfl, rfl⟩ := h
      simp [pendingWeight]
    | none, some b, h =>
      simp [nextGo] at h
      obtain ⟨-, rfl, -, rfl, rfl⟩ := h
      simp [pendingWeight]
    | none, none, h =>
      simp [nextGo] at h
  | cons x rest ih =>
    intro c own other p rem c' own' other' h
    match own, h with
    | some f, h =>
      by_cases hxf : eq x f = true
      · rw [nextGo, if_pos hxf] at h
        have := ih _ _ _ _ _ _ _ _ h
        simp only [List.length_cons]
        omega
      · rw [nextGo, if_neg hxf] at h
        obtain ⟨-, rfl, -, rfl, rfl⟩ := Prod.mk.injEq .. ▸ h
        simp_all [pendingWeight]
    | none, h =>
      rw [nextGo] at h
      have := ih _ _ _ _ _ _ _ _ h
      simp only [List.length_cons]
      simp [pendingWeight] at this ⊢
      omega

theorem backGo_some_meas (eq : α → α → Bool) :
    ∀ (l : List α) (c : Nat) (own other : Option α) (p : Nat × α) rem c' own' other',
      backGo eq l c own other = (some p, rem, c', own', other') →
      rem.length + pendingWeight own' + pendingWeight other' <
        l.length + pendingWeight own + pendingWeight other := by
  intro l
  induction l with
  | nil =>
    intro c own other p rem c' own' other' h
    match own, other, h with
    | some b, some f, h =>
      by_cases hfb : eq f b = true
      · simp [backGo, hfb] at h
        obtain ⟨-, rfl, -, rfl, rfl⟩ := h
        simp [pendingWeight]
      · simp [backGo, hfb] at h
        obtain ⟨-, rfl, -, rfl, rfl⟩ := h
        simp [pendingWeight]
    | some b, none, h =>
      simp [backGo] at h
      obtain ⟨-, rfl, -, rfl, rfl⟩ := h
      simp [pendingWeight]
    | none, some f, h =>
      simp [backGo] at h
      obtain ⟨-, rfl, -, rfl, rfl⟩ := h
      simp [pendingWeight]
    | none, none, h =>
      simp [backGo] at h
  | cons x rest ih =>
    intro c own other p rem c' own' other' h
    match own, h with
    | some b, h =>
      by_cases hxb : eq x b = true
      · rw [backGo, if_pos hxb] at h
        have := ih _ _ _ _ _ _ _ _ h
        simp only [List.length_cons]
        omega
      · rw [backGo, if_neg hxb] at h
        obtain ⟨-, rfl, -, rfl, rfl⟩ := Prod.mk.injEq .. ▸ h
        simp_all [pendingWeight]
    | none, h =>
      rw [backGo] at h
      have := ih _ _ _ _ _ _ _ _ h
      simp only [List.length_cons]
      simp [pendingWeight] at this ⊢
      omega

theorem next_some_meas (eq : α → α → Bool) (s : State α) (p : Nat × α) (s' : State α)
    (h : next eq s = (some p, s')) : measureOf s' < measureOf s := by
  unfold next at h
  rcases hgo : nextGo eq s.remaining s.count s.current_front s.current_back with
    ⟨out, rem, c', f', b'⟩
  rw [hgo] at h
  cases h
  exact nextGo_some_meas eq _ _ _ _ _ _ _ _ _ hgo

theorem next_back_some_meas (eq : α → α → Bool) (s : State α) (p : Nat × α) (s' : State α)
    (h : next_back eq s = (some p, s')) : measureOf s' < measureOf s := by
  unfold next_back at h
  rcases hgo : backGo eq s.remaining.reverse s.count s.current_back s.current_front with
    ⟨out, rrev, c', b', f'⟩
  rw [hgo] at h
  cases h
  have := backGo_some_meas eq _ _ _ _ _ _ _ _ _ hgo
  simp only [measureOf, List.length_reverse] at this ⊢
  omega

theorem pull_some_meas (eq : α → α → Bool) (d : Dir) (s : State α) (p : Nat × α) (s' : State α)
    (h : pull eq d s = (some p, s')) : measureOf s' < measureOf s := by
  cases d with
  | front => exact next_some_meas eq s p s' h
  | back => exact next_back_some_meas eq s p s' h

/-- Repeatedly call `next` until it signals exhaustion, collecting the pairs:
the front-only full drain. -/
def drainFront (eq : α → α → Bool) (s : State α) : List (Nat × α) :=
  match h : next eq s with
  | (none, _) => []
  | (some p, s') => p :: drainFront eq s'
termination_by measureOf s
decreasing_by exact next_some_meas eq s p s' h

/-- Repeatedly call `next_back` until it signals exhaustion: the back-only
full drain. -/
def drainBack (eq : α → α → Bool) (s : State α) : List (Nat × α) :=
  match h : next_back eq s with
  | (none, _) => []
  | (some p, s') => p :: drainBack eq s'
termination_by measureOf s
decreasing_by exact next_back_some_meas eq s p s' h

theorem drainFront_of_none {eq : α → α → Bool} {s : State α}
    (h : (next eq s).1 = none) : drainFront eq s = [] := by
  rw [drainFront]
  split
  · rfl
  · rename_i p s' heq
    rw [heq] at h
    exact absurd h (by simp)

theorem drainFront_of_some {eq : α → α → Bool} {s : State α} {p : Nat × α} {s' : State α}
    (h : next eq s = (some p, s')) : drainFront eq s = p :: drainFront eq s' := by
  rw [drainFront]
  split
  · rename_i heq
    rw [heq] at h
    exact absurd h (by simp)
  · rename_i q t heq
    rw [heq] at h
    cases h
    rfl

theorem drainBack_of_none {eq : α → α → Bool} {s : State α}
    (h : (next_back eq s).1 = none) : drainBack eq s = [] := by
  rw [drainBack]
  split
  · rfl
  · rename_i p s' heq
    rw [heq] at h
    exact absurd h (by simp)

theorem drainBack_of_some {eq : α → α → Bool} {s : State α} {p : Nat × α} {s' : State α}
    (h : next_back eq s = (some p, s')) : drainBack eq s = p :: drainBack eq s' := by
  rw [drainBack]
  split
  · rename_i heq
    rw [heq] at h
    exact absurd h (by simp)
  · rename_i q t heq
    rw [heq] at h
    cases h
    rfl

/-- Two states on which `next` behaves identically drain identically. -/
theorem drainFront_congr {eq : α → α → Bool} {s₁ s₂ : State α}
    (h : next eq s₁ = next eq s₂) : drainFront eq s₁ = drainFront eq s₂ := by
  rcases h₂ : next eq s₂ with ⟨out, t⟩
  cases out with
  | none =>
    rw [drainFront_of_none (by rw [h, h₂]), drainFront_of_none (by rw [h₂])]
  | some p =>
    rw [drainFront_of_some (h.trans h₂), drainFront_of_some h₂]

/-! ## The reference single-pass run-length encoding -/

/-- Modelled from the spec: the reference single-pass run-length encoding.
`rleGo rep c l` extends the in-progress run `(c, rep)` over `l`; an element
joins the run iff it compares equal to the run's representative, which is
the run's *first* element and never changes while the run grows. -/
def rleGo (eq : α → α → Bool) (rep : α) (c : Nat) : List α → List (Nat × α)
  | [] => [(c, rep)]
  | x :: rest =>
    if eq x rep then rleGo eq rep (c + 1) rest
    else (c, rep) :: rleGo eq x 1 rest

/-- Modelled from the spec: reference run-length encoding of a sequence,
representatives being each run's earliest element. -/
def rle (eq : α → α → Bool) : List α → List (Nat × α)
  | [] => []
  | x :: rest => rleGo eq x 1 rest

/-- Modelled from the spec: like `rleGo`, but the surfaced representative is
the *latest* element seen in the run (`lastSeen`), while run membership is
still decided against the run's first element `rep`, so the run decomposition
is literally that of `rleGo`. -/
def rleLastGo (eq : α → α → Bool) (rep lastSeen : α) (c : Nat) : List α → List (Nat × α)
  | [] => [(c, lastSeen)]
  | x :: rest =>
    if eq x rep then rleLastGo eq rep x (c + 1) rest
    else (c, lastSeen) :: rleLastGo eq x x 1 rest

/-- Modelled from the spec: the reference encoding with each run represented
by its *last* element in forward source order. -/
def rleLast (eq : α → α → Bool) : List α → List (Nat × α)
  | [] => []
  | x :: rest => rleLastGo eq x x 1 rest

/-! ## Front-only drains produce the reference encoding -/

theorem drainFront_go (eq : α → α → Bool) :
    ∀ (rest : List α) (c : Nat) (rep : α),
      drainFront eq ⟨rest, c, some rep, none⟩ = rleGo eq rep c rest := by
  intro rest
  induction rest with
  | nil =>
    intro c rep
    rw [@drainFront_of_some _ eq ⟨[], c, some rep, none⟩ (c, rep) ⟨[], c, none, none⟩ (by rfl)]
    rw [drainFront_of_none (by rfl)]
    rfl
  | cons x rest ih =>
    intro c rep
    by_cases hxr : eq x rep = true
    · have hstep : next eq (⟨x :: rest, c, some rep, none⟩ : State α) =
          next eq ⟨rest, c + 1, some rep, none⟩ := by
        simp [next, nextGo, hxr]
      rw [drainFront_congr hstep, ih, rleGo, if_pos hxr]
    · have hstep : next eq (⟨x :: rest, c, some rep, none⟩ : State α) =
          (some (c, rep), ⟨rest, 1, some x, none⟩) := by
        simp [next, nextGo, hxr]
      rw [drainFront_of_some hstep, ih, rleGo, if_neg hxr]

theorem drainFront_new (eq : α → α → Bool) (S : List α) :
    drainFront eq (RunLengthEncode.new S) = rle eq S := by
  cases S with
  | nil => rw [drainFront_of_none (by rfl)]; rfl
  | cons x rest =>
    have hstep : next eq (RunLengthEncode.new (x :: rest)) =
        next eq ⟨rest, 1, some x, none⟩ := by
      simp [next, RunLengthEncode.new, nextGo]
    rw [drainFront_congr hstep, drainFront_go]
    rfl

/-! ## Back-only drains: mirror reduction to the front algorithm -/

/-- When the other slot is empty the asymmetric merge test is unreachable,
so the two loop bodies coincide. -/
theorem backGo_none_other (eq : α → α → Bool) :
    ∀ (l : List α) (c : Nat) (own : Option α),
      backGo eq l c own none = nextGo eq l c own none := by
  intro l
  induction l with
  | nil =>
    intro c own
    cases own <;> rfl
  | cons x rest ih =>
    intro c own
    cases own with
    | none => rw [backGo, nextGo, ih]
    | some b =>
      by_cases hxb : eq x b = true
      · rw [backGo, if_pos hxb, nextGo, if_pos hxb, ih]
      · rw [backGo, if_neg hxb, nextGo, if_neg hxb]

/-- A pull never installs anything in the other side's slot: if the other
slot is empty on entry it is empty on exit. -/
theorem nextGo_none_other (eq : α → α → Bool) :
    ∀ (l : List α) (c : Nat) (own : Option α),
      (nextGo eq l c own none).2.2.2.2 = none := by
  intro l
  induction l with
  | nil =>
    intro c own
    cases own <;> rfl
  | cons x rest ih =>
    intro c own
    cases own with
    | none => rw [nextGo]; exact ih _ _
    | some f =>
      by_cases hxf : eq x f = true
      · rw [nextGo, if_pos hxf]; exact ih _ _
      · rw [nextGo, if_neg hxf]

/-- Draining from the back with an empty front slot is draining from the
front of the reversed pool. -/
theorem drainBack_mirror (eq : α → α → Bool) :
    ∀ (n : Nat) (rem : List α) (c : Nat) (b : Option α),
      measureOf (⟨rem, c, none, b⟩ : State α) ≤ n →
      drainBack eq ⟨rem, c, none, b⟩ = drainFront eq ⟨rem.reverse, c, b, none⟩ := by
  intro n
  induction n with
  | zero =>
    intro rem c b hm
    have hrem : rem = [] := by
      cases rem with
      | nil => rfl
      | cons x t => simp [measureOf] at hm
    have hb : b = none := by
      cases b with
      | none => rfl
      | some x => simp [measureOf, pendingWeight, hrem] at hm
    subst hrem; subst hb
    rw [drainBack_of_none (by rfl), drainFront_of_none (by rfl)]
  | succ n ih =>
    intro rem c b hm
    rcases hgo : nextGo eq rem.reverse c b none with ⟨out, rem', c', own', other'⟩
    have hother : other' = none := by
      have := nextGo_none_other eq rem.reverse c b
      rw [hgo] at this
      exact this
    subst hother
    have hnb : next_back eq (⟨rem, c, none, b⟩ : State α) =
        (out, ⟨rem'.reverse, c', none, own'⟩) := by
      unfold next_back
      simp only
      rw [backGo_none_other, hgo]
    have hnf : next eq (⟨rem.reverse, c, b, none⟩ : State α) =
        (out, ⟨rem', c', own', none⟩) := by
      unfold next
      simp only
      rw [hgo]
    cases out with
    | none => rw [drainBack_of_none (by rw [hnb]), drainFront_of_none (by rw [hnf])]
    | some p =>
      rw [drainBack_of_some hnb, drainFront_of_some hnf]
      have hlt := next_back_some_meas eq _ _ _ hnb
      have hm' : measureOf (⟨rem'.reverse, c', none, own'⟩ : State α) ≤ n := by omega
      have := ih rem'.reverse c' own' hm'
      rw [this, List.reverse_reverse]

theorem drainBack_new (eq : α → α → Bool) (S : List α) :
    drainBack eq (RunLengthEncode.new S) = rle eq S.reverse := by
  rw [show (RunLengthEncode.new S : State α) = ⟨S, 0, none, none⟩ from rfl,
    drainBack_mirror eq (measureOf (⟨S, 0, none, none⟩ : State α)) S 0 none le_rfl]
  exact drainFront_new eq S.reverse

/-! ## Reversal: the reference encoding of the reversed sequence -/

theorem rleGo_ne_nil (eq : α → α → Bool) :
    ∀ (l : List α) (rep : α) (c : Nat), rleGo eq rep c l ≠ [] := by
  intro l
  induction l with
  | nil => intro rep c; simp [rleGo]
  | cons x rest ih =>
    intro rep c
    by_cases h : eq x rep = true
    · rw [rleGo, if_pos h]; exact ih _ _
    · rw [rleGo, if_neg h]; simp

/-- Effect on a finished encoding of one more element arriving at the end:
it joins the final run when equal to that run's representative, otherwise it
opens a fresh run of one. -/
def snocRun (eq : α → α → Bool) (x : α) : List (Nat × α) → List (Nat × α)
  | [] => [(1, x)]
  | [(n, r)] => if eq x r then [(n + 1, r)] else [(n, r), (1, x)]
  | p :: q :: ps => p :: snocRun eq x (q :: ps)

theorem snocRun_cons_cons (eq : α → α → Bool) (x : α) (p q : Nat × α) (ps : List (Nat × α)) :
    snocRun eq x (p :: q :: ps) = p :: snocRun eq x (q :: ps) := rfl

theorem snocRun_cons_of_ne_nil (eq : α → α → Bool) (x : α) (p : Nat × α)
    {l : List (Nat × α)} (h : l ≠ []) :
    snocRun eq x (p :: l) = p :: snocRun eq x l := by
  cases l with
  | nil => exact absurd rfl h
  | cons q ps => rfl

theorem snocRun_snoc (eq : α → α → Bool) (x : α) :
    ∀ (l : List (Nat × α)) (n : Nat) (r : α),
      snocRun eq x (l ++ [(n, r)]) =
        if eq x r then l ++ [(n + 1, r)] else l ++ [(n, r), (1, x)] := by
  intro l
  induction l with
  | nil =>
    intro n r
    by_cases h : eq x r = true <;> simp [snocRun, h]
  | cons p l' ih =>
    intro n r
    rw [List.cons_append, snocRun_cons_of_ne_nil eq x p (by simp), ih]
    by_cases h : eq x r = true <;> simp [h]

theorem rleGo_snoc (eq : α → α → Bool) (x : α) :
    ∀ (l : List α) (rep : α) (c : Nat),
      rleGo eq rep c (l ++ [x]) = snocRun eq x (rleGo eq rep c l) := by
  intro l
  induction l with
  | nil =>
    intro rep c
    by_cases h : eq x rep = true <;> simp [rleGo, snocRun, h]
  | cons y l' ih =>
    intro rep c
    by_cases h : eq y rep = true
    · rw [List.cons_append, rleGo, if_pos h, rleGo, if_pos h, ih]
    · rw [List.cons_append, rleGo, if_neg h, rleGo, if_neg h,
        snocRun_cons_of_ne_nil eq x _ (rleGo_ne_nil eq l' y 1), ih]

theorem rle_snoc (eq : α → α → Bool) (x : α) :
    ∀ (l : List α), rle eq (l ++ [x]) = snocRun eq x (rle eq l) := by
  intro l
  cases l with
  | nil => simp [rle, rleGo, snocRun]
  | cons y l' => rw [List.cons_append, rle, rle, rleGo_snoc]

/-- Add one to the count of the first emitted pair. -/
def bumpHead : List (Nat × α) → List (Nat × α)
  | [] => []
  | (n, a) :: t => (n + 1, a) :: t

theorem rleLastGo_succ (eq : α → α → Bool) :
    ∀ (l : List α) (rep ls : α) (c : Nat),
      rleLastGo eq rep ls (c + 1) l = bumpHead (rleLastGo eq rep ls c l) := by
  intro l
  induction l with
  | nil => intro rep ls c; rfl
  | cons x rest ih =>
    intro rep ls c
    by_cases h : eq x rep = true
    · rw [rleLastGo, if_pos h, rleLastGo, if_pos h, ih]
    · rw [rleLastGo, if_neg h, rleLastGo, if_neg h]; rfl

theorem rleLastGo_congr_rep (eq : α → α → Bool) {r₁ r₂ : α}
    (hz : ∀ z, eq z r₁ = eq z r₂) :
    ∀ (l : List α) (ls : α) (c : Nat),
      rleLastGo eq r₁ ls c l = rleLastGo eq r₂ ls c l := by
  intro l
  induction l with
  | nil => intro ls c; rfl
  | cons x rest ih =>
    intro ls c
    rw [rleLastGo, rleLastGo, hz x]
    by_cases h : eq x r₂ = true
    · rw [if_pos h, if_pos h, ih]
    · rw [if_neg h, if_neg h]

/-- The first emitted pair of `rleLastGo` carries either the element last
seen on entry or an element of the current run (equal to its representative). -/
theorem rleLastGo_head (eq : α → α → Bool) :
    ∀ (l : List α) (rep ls : α) (c : Nat),
      ∃ n a t, rleLastGo eq rep ls c l = (n, a) :: t ∧ (a = ls ∨ eq a rep = true) := by
  intro l
  induction l with
  | nil => intro rep ls c; exact ⟨c, ls, [], rfl, Or.inl rfl⟩
  | cons x rest ih =>
    intro rep ls c
    by_cases h : eq x rep = true
    · obtain ⟨n, a, t, heq, hcoh⟩ := ih rep x (c + 1)
      refine ⟨n, a, t, by rw [rleLastGo, if_pos h]; exact heq, ?_⟩
      rcases hcoh with h1 | h1
      · subst h1; exact Or.inr h
      · exact Or.inr h1
    · exact ⟨c, ls, _, by rw [rleLastGo, if_neg h], Or.inl rfl⟩

theorem rleLastGo_map_fst (eq : α → α → Bool) :
    ∀ (l : List α) (rep ls : α) (c : Nat),
      (rleLastGo eq rep ls c l).map Prod.fst = (rleGo eq rep c l).map Prod.fst := by
  intro l
  induction l with
  | nil => intro rep ls c; rfl
  | cons x rest ih =>
    intro rep ls c
    by_cases h : eq x rep = true
    · rw [rleLastGo, if_pos h, rleGo, if_pos h, ih]
    · rw [rleLastGo, if_neg h, rleGo, if_neg h]
      simp only [List.map_cons]
      rw [ih]

theorem rleLast_map_fst (eq : α → α → Bool) (S : List α) :
    (rleLast eq S).map Prod.fst = (rle eq S).map Prod.fst := by
  cases S with
  | nil => rfl
  | cons x rest => exact rleLastGo_map_fst eq rest x x 1

/-- Under a symmetric and transitive element equality, the reference encoding
of the reversed sequence is the reversed last-representative encoding. -/
theorem rle_reverse_eq_rleLast (eq : α → α → Bool)
    (hs : ∀ a b, eq a b = eq b a)
    (ht : ∀ a b c, eq a b = true → eq b c = true → eq a c = true) :
    ∀ S : List α, rle eq S.reverse = (rleLast eq S).reverse := by
  intro S
  induction S with
  | nil => rfl
  | cons x rest ih =>
    rw [List.reverse_cons, rle_snoc, ih]
    cases rest with
    | nil => simp [rleLast, rleLastGo, snocRun]
    | cons y r' =>
      obtain ⟨n₁, a₁, t, hdec, hcoh⟩ := rleLastGo_head eq r' y y 1
      have hcond : eq x a₁ = eq y x := by
        rcases hcoh with h1 | h1
        · rw [h1]; exact hs x y
        · cases hxa : eq x a₁ with
          | true =>
            have hxy : eq x y = true := ht x a₁ y hxa h1
            have hyx : eq y x = true := by rw [hs y x]; exact hxy
            rw [hyx]
          | false =>
            cases hyx : eq y x with
            | false => rfl
            | true =>
              have hxy : eq x y = true := by rw [hs x y]; exact hyx
              have hya : eq y a₁ = true := by rw [hs y a₁]; exact h1
              rw [ht x y a₁ hxy hya] at hxa
              cases hxa
      rw [show rleLast eq (y :: r') = rleLastGo eq y y 1 r' from rfl, hdec,
        List.reverse_cons, snocRun_snoc, hcond]
      by_cases hyx : eq y x = true
      · have hzeq : ∀ z, eq z x = eq z y := by
          intro z
          cases hzx : eq z x with
          | true =>
            have hxy : eq x y = true := by rw [hs x y]; exact hyx
            rw [ht z x y hzx hxy]
          | false =>
            cases hzy : eq z y with
            | false => rfl
            | true =>
              rw [ht z y x hzy hyx] at hzx
              cases hzx
        rw [if_pos hyx,
          show rleLast eq (x :: y :: r') = rleLastGo eq x x 1 (y :: r') from rfl,
          rleLastGo, if_pos hyx, rleLastGo_congr_rep eq hzeq,
          rleLastGo_succ, hdec]
        simp [bumpHead]
      · rw [if_neg hyx,
          show rleLast eq (x :: y :: r') = rleLastGo eq x x 1 (y :: r') from rfl,
          rleLastGo, if_neg hyx, hdec]
        simp

/-! ## Sum of counts -/

theorem rleGo_sum (eq : α → α → Bool) :
    ∀ (l : List α) (rep : α) (c : Nat),
      ((rleGo eq rep c l).map Prod.fst).sum = c + l.length := by
  intro l
  induction l with
  | nil => intro rep c; simp [rleGo]
  | cons x rest ih =>
    intro rep c
    by_cases h : eq x rep = true
    · rw [rleGo, if_pos h, ih]
      simp only [List.length_cons]
      omega
    · rw [rleGo, if_neg h]
      simp only [List.map_cons, List.sum_cons, ih, List.length_cons]
      omega

theorem rle_sum (eq : α → α → Bool) (S : List α) :
    ((rle eq S).map Prod.fst).sum = S.length := by
  cases S with
  | nil => rfl
  | cons x rest =>
    rw [rle, rleGo_sum]
    simp only [List.length_cons]
    omega

/-! ## Exhaustion is terminal -/

/-- The loop signals exhaustion only when it starts with an empty pool and
both pending slots empty, and then it changes nothing. -/
theorem nextGo_none (eq : α → α → Bool) :
    ∀ (l : List α) (c : Nat) (own other : Option α) rem c' own' other',
      nextGo eq l c own other = (none, rem, c', own', other') →
      l = [] ∧ own = none ∧ other = none ∧
        rem = [] ∧ c' = c ∧ own' = none ∧ other' = none := by
  intro l
  induction l with
  | nil =>
    intro c own other rem c' own' other' h
    match own, other, h with
    | some f, some b, h =>
      by_cases hfb : eq f b = true <;> simp [nextGo, hfb] at h
    | some f, none, h => simp [nextGo] at h
    | none, some b, h => simp [nextGo] at h
    | none, none, h =>
      simp [nextGo] at h
      obtain ⟨rfl, rfl, rfl, rfl⟩ := h
      simp
  | cons x rest ih =>
    intro c own other rem c' own' other' h
    match own, h with
    | some f, h =>
      by_cases hxf : eq x f = true
      · rw [nextGo, if_pos hxf] at h
        obtain ⟨-, h2, -⟩ := ih _ _ _ _ _ _ _ h
        cases h2
      · rw [nextGo, if_neg hxf] at h
        simp at h
    | none, h =>
      rw [nextGo] at h
      obtain ⟨-, h2, -⟩ := ih _ _ _ _ _ _ _ h
      cases h2

theorem backGo_none (eq : α → α → Bool) :
    ∀ (l : List α) (c : Nat) (own other : Option α) rem c' own' other',
      backGo eq l c own other = (none, rem, c', own', other') →
      l = [] ∧ own = none ∧ other = none ∧
        rem = [] ∧ c' = c ∧ own' = none ∧ other' = none := by
  intro l
  induction l with
  | nil =>
    intro c own other rem c' own' other' h
    match own, other, h with
    | some b, some f, h =>
      by_cases hfb : eq f b = true <;> simp [backGo, hfb] at h
    | some b, none, h => simp [backGo] at h
    | none, some f, h => simp [backGo] at h
    | none, none, h =>
      simp [backGo] at h
      obtain ⟨rfl, rfl, rfl, rfl⟩ := h
      simp
  | cons x rest ih =>
    intro c own other rem c' own' other' h
    match own, h with
    | some b, h =>
      by_cases hxb : eq x b = true
      · rw [backGo, if_pos hxb] at h
        obtain ⟨-, h2, -⟩ := ih _ _ _ _ _ _ _ h
        cases h2
      · rw [backGo, if_neg hxb] at h
        simp at h
    | none, h =>
      rw [backGo] at h
      obtain ⟨-, h2, -⟩ := ih _ _ _ _ _ _ _ h
      cases h2

/-- A pull that signals exhaustion was called on a fully drained adapter and
leaves it unchanged. -/
theorem pull_none_terminal (eq : α → α → Bool) (d : Dir) (s : State α)
    (h : (pull eq d s).1 = none) :
    s.remaining = [] ∧ s.current_front = none ∧ s.current_back = none ∧
      (pull eq d s).2 = s := by
  obtain ⟨rem, c, f, b⟩ := s
  cases d with
  | front =>
    rcases hgo : nextGo eq rem c f b with ⟨out, rem', c', f', b'⟩
    have hpull : pull eq Dir.front ⟨rem, c, f, b⟩ = (out, ⟨rem', c', f', b'⟩) := by
      simp only [pull, next]
      rw [hgo]
    rw [hpull] at h
    simp only at h
    subst h
    obtain ⟨h1, h2, h3, h4, h5, h6, h7⟩ := nextGo_none eq _ _ _ _ _ _ _ _ hgo
    subst h1; subst h2; subst h3; subst h4; subst h5; subst h6; subst h7
    simp [hpull]
  | back =>
    rcases hgo : backGo eq rem.reverse c b f with ⟨out, rrev, c', b', f'⟩
    have hpull : pull eq Dir.back ⟨rem, c, f, b⟩ = (out, ⟨rrev.reverse, c', f', b'⟩) := by
      simp only [pull, next_back]
      rw [hgo]
    rw [hpull] at h
    simp only at h
    subst h
    obtain ⟨h1, h2, h3, h4, h5, h6, h7⟩ := backGo_none eq _ _ _ _ _ _ _ _ hgo
    have hrem : rem = [] := by
      cases rem with
      | nil => rfl
      | cons z t => simp at h1
    subst hrem; subst h2; subst h3; subst h4; subst h5; subst h6; subst h7
    simp [hpull]

/-- Pulling in either direction on a fully drained adapter signals
exhaustion and leaves the state unchanged. -/
theorem pull_terminal (eq : α → α → Bool) (d : Dir) (c : Nat) :
    pull eq d (⟨[], c, none, none⟩ : State α) = (none, ⟨[], c, none, none⟩) := by
  cases d <;> rfl

theorem runPulls_terminal (eq : α → α → Bool) :
    ∀ (ds : List Dir) (c : Nat),
      (runPulls eq ds (⟨[], c, none, none⟩ : State α)).1 =
        List.replicate ds.length none := by
  intro ds
  induction ds with
  | nil => intro c; rfl
  | cons d ds' ih =>
    intro c
    simp only [runPulls, pull_terminal, ih, List.length_cons, List.replicate]

/-! ## Instrumented semantics

The same algorithm, carrying two specification-side ghost counters: `gf`
(`gb`) is the number of source elements accumulated so far into the
pending-front (pending-back) run.  The ghosts never influence control flow;
erasing them recovers `next` / `next_back` exactly (`iNextGo_erase`,
`iBackGo_erase`).  Each pull also reports which branch of the source's
exhaustion `match` produced its result. -/

/-- Which branch of the loop emitted the call's result. -/
inductive PullEv (α : Type) where
  /-- A differing element arrived; the finished run was emitted and the new
  element installed as the calling side's pending run. -/
  | newRun
  /-- Exhaustion with both pending runs equal: merged emission.  Records the
  ghost counts and representatives of the calling side's own pending run
  (`gOwn`, `rOwn`) and of the other side's (`gOther`, `rOther`). -/
  | merged (gOwn gOther : Nat) (rOwn rOther : α)
  /-- Exhaustion: the calling side's pending run emitted alone (ghost count
  `gOwn`); the other side's pending run, if any, was left untouched. -/
  | soloOwn (gOwn : Nat)
  /-- Exhaustion with no own pending run: the other side's pending run
  drained alone (ghost count `gOther`). -/
  | soloOther (gOther : Nat)
  /-- Exhaustion with nothing pending anywhere. -/
  | exhausted
deriving DecidableEq

/-- `State` extended with the two ghost run sizes. -/
structure IState (α : Type) where
  remaining : List α
  count : Nat
  current_front : Option α
  current_back : Option α
  gf : Nat
  gb : Nat
deriving DecidableEq

/-- Result of one instrumented loop execution, own-side centric. -/
structure IGoResult (α : Type) where
  out : Option (Nat × α)
  ev : PullEv α
  rem : List α
  count : Nat
  own : Option α
  other : Option α
  gOwn : Nat
  gOther : Nat
deriving DecidableEq

/-- `nextGo` with ghost bookkeeping: installing a pending element sets its
ghost to `1`, extending the run increments it, emitting clears it. -/
def iNextGo (eq : α → α → Bool) :
    List α → Nat → Option α → Option α → Nat → Nat → IGoResult α
  | x :: rest, c, some f, other, go, gt =>
    if eq x f then iNextGo eq rest (c + 1) (some f) other (go + 1) gt
    else ⟨some (c, f), .newRun, rest, 1, some x, other, 1, gt⟩
  | x :: rest, _, none, other, _, gt => iNextGo eq rest 1 (some x) other 1 gt
  | [], c, some f, some b, go, gt =>
    if eq f b then ⟨some (c + 1, f), .merged go gt f b, [], c, none, none, 0, 0⟩
    else ⟨some (c, f), .soloOwn go, [], c, none, some b, 0, gt⟩
  | [], c, some f, none, go, gt => ⟨some (c, f), .soloOwn go, [], c, none, none, 0, gt⟩
  | [], c, none, some b, go, gt => ⟨some (1, b), .soloOther gt, [], c, none, none, go, 0⟩
  | [], c, none, none, go, gt => ⟨none, .exhausted, [], c, none, none, go, gt⟩

/-- `backGo` with ghost bookkeeping (merge test `eq f b` with `f` the other
slot, as in the source). -/
def iBackGo (eq : α → α → Bool) :
    List α → Nat → Option α → Option α → Nat → Nat → IGoResult α
  | x :: rest, c, some b, other, go, gt =>
    if eq x b then iBackGo eq rest (c + 1) (some b) other (go + 1) gt
    else ⟨some (c, b), .newRun, rest, 1, some x, other, 1, gt⟩
  | x :: rest, _, none, other, _, gt => iBackGo eq rest 1 (some x) other 1 gt
  | [], c, some b, some f, go, gt =>
    if eq f b then ⟨some (c + 1, b), .merged go gt b f, [], c, none, none, 0, 0⟩
    else ⟨some (c, b), .soloOwn go, [], c, none, some f, 0, gt⟩
  | [], c, some b, none, go, gt => ⟨some (c, b), .soloOwn go, [], c, none, none, 0, gt⟩
  | [], c, none, some f, go, gt => ⟨some (1, f), .soloOther gt, [], c, none, none, go, 0⟩
  | [], c, none, none, go, gt => ⟨none, .exhausted, [], c, none, none, go, gt⟩

/-- Instrumented `next`. -/
def inext (eq : α → α → Bool) (s : IState α) :
    Option (Nat × α) × PullEv α × IState α :=
  let r := iNextGo eq s.remaining s.count s.current_front s.current_back s.gf s.gb
  (r.out, r.ev, ⟨r.rem, r.count, r.own, r.other, r.gOwn, r.gOther⟩)

/-- Instrumented `next_back`. -/
def inext_back (eq : α → α → Bool) (s : IState α) :
    Option (Nat × α) × PullEv α × IState α :=
  let r := iBackGo eq s.remaining.reverse s.count s.current_back s.current_front s.gb s.gf
  (r.out, r.ev, ⟨r.rem.reverse, r.count, r.other, r.own, r.gOther, r.gOwn⟩)

def ipull (eq : α → α → Bool) : Dir → IState α → Option (Nat × α) × PullEv α × IState α
  | .front, s => inext eq s
  | .back, s => inext_back eq s

/-- Final instrumented state after an interleaving of pulls. -/
def irun (eq : α → α → Bool) : List Dir → IState α → IState α
  | [], s => s
  | d :: ds, s => irun eq ds (ipull eq d s).2.2

/-- Instrumented initial state of `RunLengthEncode::new`. -/
def iinit (S : List α) : IState α := ⟨S, 0, none, none, 0, 0⟩

/-- Forget the ghosts. -/
def IState.toState (s : IState α) : State α :=
  ⟨s.remaining, s.count, s.current_front, s.current_back⟩

/-- The instrumentation is sound: erasing ghosts and events from `iNextGo`
gives back `nextGo`. -/
theorem iNextGo_erase (eq : α → α → Bool) :
    ∀ (l : List α) (c : Nat) (own other : Option α) (go gt : Nat),
      ((iNextGo eq l c own other go gt).out, (iNextGo eq l c own other go gt).rem,
        (iNextGo eq l c own other go gt).count, (iNextGo eq l c own other go gt).own,
        (iNextGo eq l c own other go gt).other) = nextGo eq l c own other := by
  intro l
  induction l with
  | nil =>
    intro c own other go gt
    match own, other with
    | some f, some b =>
      by_cases hfb : eq f b = true <;> simp [iNextGo, nextGo, hfb]
    | some f, none => rfl
    | none, some b => rfl
    | none, none => rfl
  | cons x rest ih =>
    intro c own other go gt
    match own with
    | some f =>
      by_cases hxf : eq x f = true
      · rw [iNextGo, if_pos hxf, nextGo, if_pos hxf]
        exact ih _ _ _ _ _
      · rw [iNextGo, if_neg hxf, nextGo, if_neg hxf]
    | none =>
      rw [iNextGo, nextGo]
      exact ih _ _ _ _ _

theorem iBackGo_erase (eq : α → α → Bool) :
    ∀ (l : List α) (c : Nat) (own other : Option α) (go gt : Nat),
      ((iBackGo eq l c own other go gt).out, (iBackGo eq l c own other go gt).rem,
        (iBackGo eq l c own other go gt).count, (iBackGo eq l c own other go gt).own,
        (iBackGo eq l c own other go gt).other) = backGo eq l c own other := by
  intro l
  induction l with
  | nil =>
    intro c own other go gt
    match own, other with
    | some b, some f =>
      by_cases hfb : eq f b = true <;> simp [iBackGo, backGo, hfb]
    | some b, none => rfl
    | none, some f => rfl
    | none, none => rfl
  | cons x rest ih =>
    intro c own other go gt
    match own with
    | some b =>
      by_cases hxb : eq x b = true
      · rw [iBackGo, if_pos hxb, backGo, if_pos hxb]
        exact ih _ _ _ _ _
      · rw [iBackGo, if_neg hxb, backGo, if_neg hxb]
    | none =>
      rw [iBackGo, backGo]
      exact ih _ _ _ _ _

/-- Instrumented pulls project onto the plain adapter semantics. -/
theorem ipull_erase (eq : α → α → Bool) (d : Dir) (s : IState α) :
    (ipull eq d s).1 = (pull eq d s.toState).1 ∧
      ((ipull eq d s).2.2).toState = (pull eq d s.toState).2 := by
  cases d with
  | front =>
    have h := iNextGo_erase eq s.remaining s.count s.current_front s.current_back s.gf s.gb
    rcases higo : iNextGo eq s.remaining s.count s.current_front s.current_back s.gf s.gb with
      ⟨iout, iev, irem, ic, iown, ioth, igo, igt⟩
    rw [higo] at h
    constructor
    · simp [ipull, inext, pull, next, IState.toState, higo, ← h]
    · simp [ipull, inext, pull, next, IState.toState, higo, ← h]
  | back =>
    have h := iBackGo_erase eq s.remaining.reverse s.count s.current_back s.current_front s.gb s.gf
    rcases higo : iBackGo eq s.remaining.reverse s.count s.current_back s.current_front s.gb s.gf with
      ⟨iout, iev, irem, ic, iown, ioth, igo, igt⟩
    rw [higo] at h
    constructor
    · simp [ipull, inext_back, pull, next_back, IState.toState, higo, ← h]
    · simp [ipull, inext_back, pull, next_back, IState.toState, higo, ← h]

/-! ## The reachable-state invariant -/

/-- Invariant at call boundaries: an occupied pending slot always holds a
run of exactly one source element, and whenever the shared `count` field is
still live (both slots occupied, or source not yet exhausted with a slot
occupied) it equals `1`, the size of the freshly installed pending run.
After an exhaustion emission has restored the other side's slot, `count` may
go stale — but only with a single occupied slot and an empty source. -/
def INV (s : IState α) : Prop :=
  (∀ f, s.current_front = some f → s.gf = 1) ∧
  (∀ b, s.current_back = some b → s.gb = 1) ∧
  (s.current_front.isSome → s.current_back.isSome → s.count = 1) ∧
  (s.remaining ≠ [] → s.current_front.isSome ∨ s.current_back.isSome → s.count = 1)

/-- What one loop execution guarantees when entered with a live `count`
(equal to the own ghost) and a one-element other slot: the boundary
invariant holds on exit, and a merged emission's count is exactly the sum
of the two pending runs' ghost sizes. -/
def GoPost (r : IGoResult α) : Prop :=
  (∀ f, r.own = some f → r.gOwn = 1) ∧
  (∀ b, r.other = some b → r.gOther = 1) ∧
  (r.own.isSome → r.other.isSome → r.count = 1) ∧
  (r.rem ≠ [] → r.own.isSome ∨ r.other.isSome → r.count = 1) ∧
  (∀ g1 g2 r1 r2, r.ev = PullEv.merged g1 g2 r1 r2 →
    r.out = some (g1 + g2, r1) ∧ r.own = none ∧ r.other = none ∧ r.rem = [])

theorem iNextGo_master (eq : α → α → Bool) :
    ∀ (l : List α) (c : Nat) (own other : Option α) (go gt : Nat),
      (∀ o, own = some o → c = go) →
      (∀ t, other = some t → gt = 1) →
      GoPost (iNextGo eq l c own other go gt) := by
  intro l
  induction l with
  | nil =>
    intro c own other go gt h1 h2
    match own, other with
    | some f, some b =>
      have hc : c = go := h1 f rfl
      have hgt : gt = 1 := h2 b rfl
      by_cases hfb : eq f b = true
      · rw [iNextGo, if_pos hfb]
        refine ⟨by simp, by simp, by simp, by simp, ?_⟩
        intro g1 g2 r1 r2 hev
        simp only [PullEv.merged.injEq] at hev
        obtain ⟨rfl, rfl, rfl, rfl⟩ := hev
        refine ⟨?_, rfl, rfl, rfl⟩
        simp only [Option.some.injEq, Prod.mk.injEq]
        exact ⟨by omega, trivial⟩
      · rw [iNextGo, if_neg hfb]
        exact ⟨by simp, fun _ _ => by simpa using hgt, by simp, by simp, by simp⟩
    | some f, none =>
      rw [iNextGo]
      exact ⟨by simp, by simp, by simp, by simp, by simp⟩
    | none, some b =>
      rw [iNextGo]
      exact ⟨by simp, by simp, by simp, by simp, by simp⟩
    | none, none =>
      rw [iNextGo]
      exact ⟨by simp, by simp, by simp, by simp, by simp⟩
  | cons x rest ih =>
    intro c own other go gt h1 h2
    match own with
    | some f =>
      by_cases hxf : eq x f = true
      · rw [iNextGo, if_pos hxf]
        refine ih (c + 1) (some f) other (go + 1) gt ?_ h2
        intro o ho
        cases ho
        have := h1 f rfl
        omega
      · rw [iNextGo, if_neg hxf]
        refine ⟨by simp, ?_, by simp, by simp, by simp⟩
        intro b hb
        exact h2 b hb
    | none =>
      rw [iNextGo]
      exact ih 1 (some x) other 1 gt (by intro o ho; cases ho; rfl) h2

theorem iBackGo_master (eq : α → α → Bool) :
    ∀ (l : List α) (c : Nat) (own other : Option α) (go gt : Nat),
      (∀ o, own = some o → c = go) →
      (∀ t, other = some t → gt = 1) →
      GoPost (iBackGo eq l c own other go gt) := by
  intro l
  induction l with
  | nil =>
    intro c own other go gt h1 h2
    match own, other with
    | some b, some f =>
      have hc : c = go := h1 b rfl
      have hgt : gt = 1 := h2 f rfl
      by_cases hfb : eq f b = true
      · rw [iBackGo, if_pos hfb]
        refine ⟨by simp, by simp, by simp, by simp, ?_⟩
        intro g1 g2 r1 r2 hev
        simp only [PullEv.merged.injEq] at hev
        obtain ⟨rfl, rfl, rfl, rfl⟩ := hev
        refine ⟨?_, rfl, rfl, rfl⟩
        simp only [Option.some.injEq, Prod.mk.injEq]
        exact ⟨by omega, trivial⟩
      · rw [iBackGo, if_neg hfb]
        exact ⟨by simp, fun _ _ => by simpa using hgt, by simp, by simp, by simp⟩
    | some b, none =>
      rw [iBackGo]
      exact ⟨by simp, by simp, by simp, by simp, by simp⟩
    | none, some f =>
      rw [iBackGo]
      exact ⟨by simp, by simp, by simp, by simp, by simp⟩
    | none, none =>
      rw [iBackGo]
      exact ⟨by simp, by simp, by simp, by simp, by simp⟩
  | cons x rest ih =>
    intro c own other go gt h1 h2
    match own with
    | some b =>
      by_cases hxb : eq x b = true
      · rw [iBackGo, if_pos hxb]
        refine ih (c + 1) (some b) other (go + 1) gt ?_ h2
        intro o ho
        cases ho
        have := h1 b rfl
        omega
      · rw [iBackGo, if_neg hxb]
        refine ⟨by simp, ?_, by simp, by simp, by simp⟩
        intro f hf
        exact h2 f hf
    | none =>
      rw [iBackGo]
      exact ih 1 (some x) other 1 gt (by intro o ho; cases ho; rfl) h2

theorem INV_iinit (S : List α) : INV (iinit S) := by
  refine ⟨?_, ?_, ?_, ?_⟩ <;> simp [iinit]

theorem INV_ipull (eq : α → α → Bool) (d : Dir) (s : IState α) (h : INV s) :
    INV (ipull eq d s).2.2 := by
  obtain ⟨rem, c, cf, cb, gf, gb⟩ := s
  obtain ⟨h1, h2, h3, h4⟩ := h
  cases d with
  | front =>
    cases cf with
    | none =>
      have hpost := iNextGo_master eq rem c none cb gf gb (by intro o ho; cases ho) h2
      exact ⟨hpost.1, hpost.2.1, hpost.2.2.1, hpost.2.2.2.1⟩
    | some f =>
      have hgf : gf = 1 := h1 f rfl
      cases cb with
      | some b =>
        have hc1 : c = 1 := h3 rfl rfl
        have hpost := iNextGo_master eq rem c (some f) (some b) gf gb
          (by intro o ho; cases ho; rw [hc1, hgf]) h2
        exact ⟨hpost.1, hpost.2.1, hpost.2.2.1, hpost.2.2.2.1⟩
      | none =>
        cases rem with
        | nil =>
          show INV (⟨[], c, none, none, 0, gb⟩ : IState α)
          refine ⟨?_, ?_, ?_, ?_⟩ <;> simp
        | cons z t =>
          have hc1 : c = 1 := h4 (by simp) (Or.inl rfl)
          have hpost := iNextGo_master eq (z :: t) c (some f) none gf gb
            (by intro o ho; cases ho; rw [hc1, hgf]) (by intro o ho; cases ho)
          exact ⟨hpost.1, hpost.2.1, hpost.2.2.1, hpost.2.2.2.1⟩
  | back =>
    have hmap : ∀ (hpost : GoPost (iBackGo eq rem.reverse c cb cf gb gf)),
        INV (ipull eq Dir.back (⟨rem, c, cf, cb, gf, gb⟩ : IState α)).2.2 := by
      intro hpost
      rcases hr : iBackGo eq rem.reverse c cb cf gb gf with
        ⟨iout, iev, irem, ic, iown, ioth, igo, igt⟩
      rw [hr] at hpost
      obtain ⟨p1, p2, p3, p4, p5⟩ := hpost
      have hstate : (ipull eq Dir.back (⟨rem, c, cf, cb, gf, gb⟩ : IState α)).2.2 =
          ⟨irem.reverse, ic, ioth, iown, igt, igo⟩ := by
        simp [ipull, inext_back, hr]
      rw [hstate]
      refine ⟨fun f' hf' => p2 f' hf', fun b' hb' => p1 b' hb',
        fun hfs hbs => p3 hbs hfs, ?_⟩
      intro hrne hor
      refine p4 ?_ hor.symm
      intro hnil
      rw [show (⟨iout, iev, irem, ic, iown, ioth, igo, igt⟩ : IGoResult α).rem = irem
        from rfl] at hnil
      rw [hnil] at hrne
      exact hrne rfl
    cases cb with
    | none =>
      exact hmap (iBackGo_master eq rem.reverse c none cf gb gf
        (by intro o ho; cases ho) h1)
    | some b =>
      have hgb : gb = 1 := h2 b rfl
      cases cf with
      | some f =>
        have hc1 : c = 1 := h3 rfl rfl
        exact hmap (iBackGo_master eq rem.reverse c (some b) (some f) gb gf
          (by intro o ho; cases ho; rw [hc1, hgb]) h1)
      | none =>
        cases rem with
        | nil =>
          show INV (⟨([] : List α).reverse, c, none, none, gf, 0⟩ : IState α)
          refine ⟨?_, ?_, ?_, ?_⟩ <;> simp
        | cons z t =>
          have hc1 : c = 1 := h4 (by simp) (Or.inr rfl)
          exact hmap (iBackGo_master eq ((z :: t) : List α).reverse c (some b) none gb gf
            (by intro o ho; cases ho; rw [hc1, hgb]) (by intro o ho; cases ho))

theorem INV_irun (eq : α → α → Bool) :
    ∀ (ds : List Dir) (s : IState α), INV s → INV (irun eq ds s) := by
  intro ds
  induction ds with
  | nil => intro s h; exact h
  | cons d ds' ih => intro s h; exact ih _ (INV_ipull eq d s h)

/-- On any state satisfying the boundary invariant, a merged emission's
count is the sum of the two pending runs' ghost sizes, its representative is
the calling side's, and both slots are cleared with the source exhausted. -/
theorem ipull_merged_correct (eq : α → α → Bool) (d : Dir) (s : IState α) (hINV : INV s)
    (g1 g2 : Nat) (r1 r2 : α)
    (hev : (ipull eq d s).2.1 = PullEv.merged g1 g2 r1 r2) :
    (ipull eq d s).1 = some (g1 + g2, r1) ∧
      (ipull eq d s).2.2.current_front = none ∧
      (ipull eq d s).2.2.current_back = none ∧
      (ipull eq d s).2.2.remaining = [] := by
  obtain ⟨rem, c, cf, cb, gf, gb⟩ := s
  obtain ⟨h1, h2, h3, h4⟩ := hINV
  cases d with
  | front =>
    have hpost : GoPost (iNextGo eq rem c cf cb gf gb) := by
      cases cf with
      | none => exact iNextGo_master eq rem c none cb gf gb (by intro o ho; cases ho) h2
      | some f =>
        have hgf : gf = 1 := h1 f rfl
        cases cb with
        | some b =>
          have hc1 : c = 1 := h3 rfl rfl
          exact iNextGo_master eq rem c (some f) (some b) gf gb
            (by intro o ho; cases ho; rw [hc1, hgf]) h2
        | none =>
          cases rem with
          | nil =>
            exfalso
            rw [show (ipull eq Dir.front (⟨[], c, some f, none, gf, gb⟩ : IState α)).2.1 =
              PullEv.soloOwn gf from rfl] at hev
            cases hev
          | cons z t =>
            have hc1 : c = 1 := h4 (by simp) (Or.inl rfl)
            exact iNextGo_master eq (z :: t) c (some f) none gf gb
              (by intro o ho; cases ho; rw [hc1, hgf]) (by intro o ho; cases ho)
    obtain ⟨q1, q2, q3, q4⟩ := hpost.2.2.2.2 g1 g2 r1 r2 hev
    exact ⟨q1, q2, q3, q4⟩
  | back =>
    have hpost : GoPost (iBackGo eq rem.reverse c cb cf gb gf) := by
      cases cb with
      | none => exact iBackGo_master eq rem.reverse c none cf gb gf (by intro o ho; cases ho) h1
      | some b =>
        have hgb : gb = 1 := h2 b rfl
        cases cf with
        | some f =>
          have hc1 : c = 1 := h3 rfl rfl
          exact iBackGo_master eq rem.reverse c (some b) (some f) gb gf
            (by intro o ho; cases ho; rw [hc1, hgb]) h1
        | none =>
          cases rem with
          | nil =>
            exfalso
            rw [show (ipull eq Dir.back (⟨[], c, none, some b, gf, gb⟩ : IState α)).2.1 =
              PullEv.soloOwn gb from rfl] at hev
            cases hev
          | cons z t =>
            have hc1 : c = 1 := h4 (by simp) (Or.inr rfl)
            exact iBackGo_master eq ((z :: t) : List α).reverse c (some b) none gb gf
              (by intro o ho; cases ho; rw [hc1, hgb]) (by intro o ho; cases ho)
    rcases hr : iBackGo eq rem.reverse c cb cf gb gf with
      ⟨iout, iev, irem, ic, iown, ioth, igo, igt⟩
    rw [hr] at hpost
    obtain ⟨p1, p2, p3, p4, p5⟩ := hpost
    have hev' : iev = PullEv.merged g1 g2 r1 r2 := by
      rw [show (ipull eq Dir.back (⟨rem, c, cf, cb, gf, gb⟩ : IState α)).2.1 =
        (iBackGo eq rem.reverse c cb cf gb gf).ev from rfl, hr] at hev
      exact hev
    obtain ⟨q1, q2, q3, q4⟩ := p5 g1 g2 r1 r2 hev'
    have hout : (ipull eq Dir.back (⟨rem, c, cf, cb, gf, gb⟩ : IState α)).1 = iout := by
      rw [show (ipull eq Dir.back (⟨rem, c, cf, cb, gf, gb⟩ : IState α)).1 =
        (iBackGo eq rem.reverse c cb cf gb gf).out from rfl, hr]
    have hstate : (ipull eq Dir.back (⟨rem, c, cf, cb, gf, gb⟩ : IState α)).2.2 =
        ⟨irem.reverse, ic, ioth, iown, igt, igo⟩ := by
      simp [ipull, inext_back, hr]
    rw [hout, hstate]
    simp only at q1 q2 q3 q4
    exact ⟨q1, q3, q2, by rw [show irem = [] from q4]; rfl⟩

/-! ## The `Fuse` wrapper

`RunLengthEncode::new` stores `iter.fuse()`, never the raw iterator.
Modelled from the semantics of Rust's `std::iter::Fuse`: a wrapped
`Option`-state holding the inner iterator, dropped (set to `none`) the
first time any end yields `None`, after which every call on either end
yields `None` without touching the inner iterator.  The inner double-ended
iterator is an arbitrary step machine — it is allowed to "resurrect"
(yield again after yielding `None`), i.e. it need not be fusing. -/

/-- An arbitrary, possibly non-fusing, double-ended pull source. -/
structure RawIter (σ α : Type) where
  step_front : σ → Option α × σ
  step_back : σ → Option α × σ

/-- `Fuse::next`. -/
def fuse_next {σ : Type} (R : RawIter σ α) : Option σ → Option α × Option σ
  | none => (none, none)
  | some st =>
    match R.step_front st with
    | (none, _) => (none, none)
    | (some a, st') => (some a, some st')

/-- `Fuse::next_back`. -/
def fuse_next_back {σ : Type} (R : RawIter σ α) : Option σ → Option α × Option σ
  | none => (none, none)
  | some st =>
    match R.step_back st with
    | (none, _) => (none, none)
    | (some a, st') => (some a, some st')

def fusePull {σ : Type} (R : RawIter σ α) : Dir → Option σ → Option α × Option σ
  | .front, fs => fuse_next R fs
  | .back, fs => fuse_next_back R fs

def fuseRun {σ : Type} (R : RawIter σ α) :
    List Dir → Option σ → List (Option α) × Option σ
  | [], fs => ([], fs)
  | d :: ds, fs =>
    let r := fusePull R d fs
    let rs := fuseRun R ds r.2
    (r.1 :: rs.1, rs.2)

theorem fusePull_none_state {σ : Type} (R : RawIter σ α) (d : Dir) (fs : Option σ)
    (h : (fusePull R d fs).1 = none) : (fusePull R d fs).2 = none := by
  cases d with
  | front =>
    cases fs with
    | none => rfl
    | some st =>
      rcases hst : R.step_front st with ⟨o, st'⟩
      cases o with
      | none => simp [fusePull, fuse_next, hst]
      | some a => simp [fusePull, fuse_next, hst] at h
  | back =>
    cases fs with
    | none => rfl
    | some st =>
      rcases hst : R.step_back st with ⟨o, st'⟩
      cases o with
      | none => simp [fusePull, fuse_next_back, hst]
      | some a => simp [fusePull, fuse_next_back, hst] at h

theorem fusePull_dropped {σ : Type} (R : RawIter σ α) (d : Dir) :
    fusePull R d (none : Option σ) = (none, none) := by
  cases d <;> rfl

theorem fuseRun_dropped {σ : Type} (R : RawIter σ α) :
    ∀ ds : List Dir, (fuseRun R ds (none : Option σ)).1 = List.replicate ds.length none := by
  intro ds
  induction ds with
  | nil => rfl
  | cons d ds' ih =>
    simp only [fuseRun, fusePull_dropped, ih, List.length_cons, List.replicate]

/-- A deliberately non-fusing source: its front end yields `None` at state
`0` but yields `7` again from the successor state. -/
def resurrecting : RawIter Nat Nat :=
  ⟨fun st => if st = 0 then (none, 1) else (some 7, 0), fun st => (some 9, st + 1)⟩

/-- Element equality on pairs that only inspects the first component — a
lawful `Eq` that ignores a payload field, making the choice of run
representative observable. -/
def eqFst : Nat × Nat → Nat × Nat → Bool := fun p q => decide (p.1 = q.1)

/-! ## The claims -/

/-- C1: FALSE of the code.  The claim says every interleaving of front/back
pulls that fully drains the source emits exactly the reference encoding's
run-pairs (as a multiset), with counts summing to the source length.
Counterexample: source `[0, 1, 2, 2]` pulled front, back, front.  The back
pull's exhaustion emission leaves the shared `count` field at `2` while
restoring the one-element pending-front run `1`; the final front pull then
re-reads that stale `count` and emits `(2, 1)` for a run of one element.
The multiset emitted is `{(1,0), (2,2), (2,1)}`, not the reference
`{(1,0), (1,1), (2,2)}`, and the counts sum to `5 ≠ 4`. -/
theorem c1_interleaving_counterexample :
    (runPulls eqNat [Dir.front, Dir.back, Dir.front, Dir.front]
        (RunLengthEncode.new [0, 1, 2, 2])).1 =
      [some (1, 0), some (2, 2), some (2, 1), none] ∧
    rle eqNat [0, 1, 2, 2] = [(1, 0), (1, 1), (2, 2)] ∧
    Multiset.ofList [((1 : Nat), (0 : Nat)), (2, 2), (2, 1)] ≠
      Multiset.ofList (rle eqNat [0, 1, 2, 2]) ∧
    (1 + 2 + 2 : Nat) ≠ [0, 1, 2, 2].length := by
  refine ⟨by decide, by decide, ?_, by decide⟩
  decide

/-- C2: draining the adapter purely from the front yields exactly the
reference single-pass run-length encoding, in order, each representative
being the earliest element pulled into its run. -/
theorem c2_front_drain (eq : α → α → Bool) (S : List α) :
    drainFront eq (RunLengthEncode.new S) = rle eq S :=
  drainFront_new eq S

/-- C3: draining purely from the back yields the reference encoding's
run-pairs in reverse order, each represented by its run's *last* element in
forward source order (same run boundaries and counts as the reference
encoding), provided element equality is symmetric and transitive as Rust's
`Eq` contract demands. -/
theorem c3_back_drain (eq : α → α → Bool)
    (hs : ∀ a b, eq a b = eq b a)
    (ht : ∀ a b c, eq a b = true → eq b c = true → eq a c = true)
    (S : List α) :
    drainBack eq (RunLengthEncode.new S) = (rleLast eq S).reverse ∧
      (rleLast eq S).map Prod.fst = (rle eq S).map Prod.fst :=
  ⟨by rw [drainBack_new, rle_reverse_eq_rleLast eq hs ht], rleLast_map_fst eq S⟩

theorem c3_back_drain_witness :
    drainBack eqFst (RunLengthEncode.new [(1, 10), (1, 11), (2, 20)]) =
        (rleLast eqFst [(1, 10), (1, 11), (2, 20)]).reverse ∧
      (rleLast eqFst [(1, 10), (1, 11), (2, 20)]).map Prod.fst =
        (rle eqFst [(1, 10), (1, 11), (2, 20)]).map Prod.fst :=
  c3_back_drain eqFst
    (by intro a b; rw [eqFst, eqFst, decide_eq_decide]; exact eq_comm)
    (by
      intro a b c hab hbc
      rw [eqFst, decide_eq_true_eq] at hab hbc ⊢
      exact hab.trans hbc)
    [(1, 10), (1, 11), (2, 20)]

/-- C4: on every reachable state, when a pull meets exhaustion with both a
pending-front and a pending-back run whose representatives are equal, it
emits exactly one merged pair whose count is the sum of the ghost sizes of
the two pending runs, represented by the calling side's own pending
element (`r1` below is the `rOwn` field of the `merged` event, recorded
from the calling side's slot), and clears both slots with the source
exhausted, so the pair can never be emitted again. -/
theorem c4_merge (eq : α → α → Bool) (S : List α) (ds : List Dir) (d : Dir)
    (g1 g2 : Nat) (r1 r2 : α)
    (hev : (ipull eq d (irun eq ds (iinit S))).2.1 = PullEv.merged g1 g2 r1 r2) :
    (ipull eq d (irun eq ds (iinit S))).1 = some (g1 + g2, r1) ∧
      (ipull eq d (irun eq ds (iinit S))).2.2.current_front = none ∧
      (ipull eq d (irun eq ds (iinit S))).2.2.current_back = none ∧
      (ipull eq d (irun eq ds (iinit S))).2.2.remaining = [] :=
  ipull_merged_correct eq d _ (INV_irun eq ds (iinit S) (INV_iinit S)) g1 g2 r1 r2 hev

theorem c4_merge_witness :
    (ipull eqNat Dir.back (irun eqNat [Dir.front] (iinit [1, 2, 2]))).1 =
        some (1 + 1, 2) ∧
      (ipull eqNat Dir.back (irun eqNat [Dir.front] (iinit [1, 2, 2]))).2.2.current_front = none ∧
      (ipull eqNat Dir.back (irun eqNat [Dir.front] (iinit [1, 2, 2]))).2.2.current_back = none ∧
      (ipull eqNat Dir.back (irun eqNat [Dir.front] (iinit [1, 2, 2]))).2.2.remaining = [] :=
  c4_merge eqNat [1, 2, 2] [Dir.front] Dir.back 1 1 2 2 (by decide)

/-- C5: FALSE of the code.  The claim says an unmerged exhaustion emission
always carries exactly the number of source elements accumulated into the
emitted pending run.  Counterexample: source `[0, 1, 2, 2]` pulled front,
then back, then front.  The third pull emits its pending-front run `1`
alone — the `soloOwn` event records that exactly `1` source element was
accumulated into it — yet the emitted count is the stale shared `count`
field, `2`. -/
theorem c5_solo_count_counterexample :
    (ipull eqNat Dir.front (irun eqNat [Dir.front, Dir.back] (iinit [0, 1, 2, 2]))).1 =
        some (2, 1) ∧
      (ipull eqNat Dir.front (irun eqNat [Dir.front, Dir.back] (iinit [0, 1, 2, 2]))).2.1 =
        PullEv.soloOwn 1 ∧
      (2 : Nat) ≠ 1 := by
  refine ⟨by decide, by decide, by decide⟩

/-- C6: exhaustion is permanent: as soon as one pull (in either direction,
from any state) signals exhaustion, every later pull in every direction
also signals exhaustion. -/
theorem c6_exhaustion_terminal (eq : α → α → Bool) (d : Dir) (s : State α)
    (h : (pull eq d s).1 = none) (ds : List Dir) :
    (runPulls eq ds (pull eq d s).2).1 = List.replicate ds.length none := by
  obtain ⟨hrem, hf, hb, hs'⟩ := pull_none_terminal eq d s h
  rw [hs']
  obtain ⟨rem, c, cf, cb⟩ := s
  simp only at hrem hf hb
  subst hrem; subst hf; subst hb
  exact runPulls_terminal eq ds c

theorem c6_exhaustion_terminal_witness :
    (runPulls eqNat [Dir.front, Dir.back]
        (pull eqNat Dir.front (RunLengthEncode.new ([] : List Nat))).2).1 =
      List.replicate 2 none :=
  c6_exhaustion_terminal eqNat Dir.front (RunLengthEncode.new ([] : List Nat))
    (by decide) [Dir.front, Dir.back]

/-- C7: a full drain in a single direction — all pulls `next`, or all pulls
`next_back` — emits counts summing exactly to the source length. -/
theorem c7_sum (eq : α → α → Bool) (S : List α) :
    ((drainFront eq (RunLengthEncode.new S)).map Prod.fst).sum = S.length ∧
      ((drainBack eq (RunLengthEncode.new S)).map Prod.fst).sum = S.length :=
  ⟨by rw [drainFront_new, rle_sum],
   by rw [drainBack_new, rle_sum, List.length_reverse]⟩

/-- C8: every pull is total: on any state it returns either exhaustion or a
run-pair — no other outcome exists (`next`/`next_back` are total Lean
functions, so the inner `loop` provably terminates on every finite
source) — and an emitting pull strictly decreases the drain measure, so a
full drain also terminates. -/
theorem c8_total (eq : α → α → Bool) (d : Dir) (s : State α) :
    (pull eq d s).1 = none ∨
      ∃ p : Nat × α, (pull eq d s).1 = some p ∧
        measureOf (pull eq d s).2 < measureOf s := by
  rcases hp : (pull eq d s).1 with _ | p
  · exact Or.inl rfl
  · refine Or.inr ⟨p, rfl, ?_⟩
    refine pull_some_meas eq d s p (pull eq d s).2 ?_
    rw [← hp]

/-- C9: the constructor stores `iter.fuse()` (a `Fuse<I>` field), and the
`Fuse` wrapper itself guarantees fusing: for *any* inner double-ended
iterator, including a non-fusing one that would resurrect, once a pull on
the fused wrapper signals exhaustion every subsequent pull in every
direction and interleaving signals exhaustion — so the adapter never
observes an element from its source after exhaustion was first signalled,
without any fusing precondition on the collaborator. -/
theorem c9_fuse {σ : Type} (R : RawIter σ α) (d : Dir) (fs : Option σ)
    (h : (fusePull R d fs).1 = none) (ds : List Dir) :
    (fuseRun R ds (fusePull R d fs).2).1 = List.replicate ds.length none := by
  rw [fusePull_none_state R d fs h]
  exact fuseRun_dropped R ds

theorem c9_fuse_witness :
    (fuseRun resurrecting [Dir.front, Dir.back, Dir.front]
        (fusePull resurrecting Dir.front (some 0)).2).1 =
      List.replicate 3 none :=
  c9_fuse resurrecting Dir.front (some 0) (by decide) [Dir.front, Dir.back, Dir.front]

/-- C10: invariant at call boundaries: whenever a pending slot is occupied
after any interleaving of pulls from a fresh adapter, the pending run it
holds consists of exactly one consumed-but-unemitted source element (ghost
size `1`). -/
theorem c10_pending_single (eq : α → α → Bool) (S : List α) (ds : List Dir) :
    (∀ f, (irun eq ds (iinit S)).current_front = some f →
        (irun eq ds (iinit S)).gf = 1) ∧
      (∀ b, (irun eq ds (iinit S)).current_back = some b →
        (irun eq ds (iinit S)).gb = 1) := by
  have h := INV_irun eq ds (iinit S) (INV_iinit S)
  exact ⟨h.1, h.2.1⟩

theorem c10_pending_single_witness :
    (irun eqNat [Dir.front] (iinit [1, 2])).gf = 1 :=
  (c10_pending_single eqNat [1, 2] [Dir.front]).1 2 (by decide)

end RLE
